import Mathlib

/-!
Verification of the ns3penv data-exchange layer: the recursive container
model of `src/model/container.cc` / `container.h` and the gym interface
protocol engine of `src/model/ns3penv-gym-interface.cc`, shallowly embedded.

Modelling conventions:
* `int32_t` payloads are carried as `Int`, `uint32_t` payloads as `Nat`;
  the container layer only copies these values, it never computes with them.
* `float` / `double` payloads are carried as opaque bit patterns (`F32`,
  `F64`): the container layer copies them verbatim and never interprets
  them numerically, so an uninterpreted carrier is faithful.
* `std::map<std::string, Ptr<OpenGymDataContainer>>` (the field
  `OpenGymDictContainer::m_dict`) is modelled as a key-sorted association
  list with unique keys; `std::map::insert` is insert-if-absent.
* A null `Ptr<OpenGymDataContainer>` is modelled as `Option.none`.
* `NS_ABORT_MSG` (fatal, process-aborting) is modelled as `Option.none`
  in the functions that can hit it.
* `OpenGymDiscreteContainer::m_n` (the advisory maximum) is not part of
  the model: none of `GetDataContainerPbMsg`, `CreateFromDataContainerPbMsg`,
  `Print`, `SetValue` or `GetValue` reads it, and no claim mentions it.
-/

namespace Ns3penv

/-- Wire dtype enum `ns3penv::Dtype` (INT, UINT, FLOAT, DOUBLE). -/
inductive Dtype : Type
  | INT
  | UINT
  | FLOAT
  | DOUBLE
deriving DecidableEq, Repr

/-- Opaque carrier for a C++ `float` value (bit pattern). The container
layer only copies floats, so no numeric interpretation is needed. -/
structure F32 : Type where
  bits : Nat
deriving DecidableEq, Repr

/-- Opaque carrier for a C++ `double` value (bit pattern). -/
structure F64 : Type where
  bits : Nat
deriving DecidableEq, Repr

instance : OfNat F32 0 := ⟨⟨0⟩⟩

instance : OfNat F64 0 := ⟨⟨0⟩⟩

/-- In-memory container model: the closed variant implemented by
`OpenGymDiscreteContainer`, `OpenGymBoxContainer<T>` for the four
instantiated element types, `OpenGymTupleContainer` and
`OpenGymDictContainer`.  Dict entries model the `std::map` field
`m_dict`, i.e. a key-sorted unique-key association list. -/
inductive Container : Type
  | discrete (value : Nat)
  | boxInt (shape : List Nat) (data : List Int)
  | boxUint (shape : List Nat) (data : List Nat)
  | boxFloat (shape : List Nat) (data : List F32)
  | boxDouble (shape : List Nat) (data : List F64)
  | tuple (elems : List Container)
  | dict (entries : List (String × Container))

/-- Wire message model: the protobuf `ns3penv::DataContainer` oneof.
The Box wire form carries the shape, the dtype tag and all four typed
arrays (the encoder populates exactly one).  A dict wire element is a
sub-message annotated with its `name` field. -/
inductive WireMsg : Type
  | discrete (data : Nat)
  | box (shape : List Nat) (dtype : Dtype) (intData : List Int)
      (uintData : List Nat) (floatData : List F32) (doubleData : List F64)
  | tuple (elems : List WireMsg)
  | dict (elems : List (String × WireMsg))

/-- The code-point sequence of a string.  `std::map<std::string, ·>` orders
keys by `std::less<std::string>`, i.e. lexicographically on UTF-8 bytes;
byte-lexicographic order on UTF-8 coincides with lexicographic order on
code points, so this is a faithful key image. -/
def strKey (s : String) : List Nat := s.data.map Char.toNat

/-- The strict key order of `std::map<std::string, ·>`. -/
def keyLt (a b : String) : Prop := strKey a < strKey b

instance (a b : String) : Decidable (keyLt a b) := by
  unfold keyLt; infer_instance

/-- `std::map` lookup (`m_dict.find(key)`), on the sorted-association-list
model. -/
def mapFind {α : Type} (k : String) : List (String × α) → Option α
  | [] => none
  | (k', v) :: rest => if k = k' then some v else mapFind k rest

/-- `std::map::insert(std::pair(key, data))`: inserts keeping keys sorted,
and is a no-op when the key is already present (insert never overwrites). -/
def mapInsert {α : Type} (k : String) (v : α) : List (String × α) → List (String × α)
  | [] => [(k, v)]
  | (k', v') :: rest =>
    if keyLt k k' then (k, v) :: (k', v') :: rest
    else if k = k' then (k', v') :: rest
    else (k', v') :: mapInsert k v rest

mutual

/-- `GetDataContainerPbMsg` for every variant: `OpenGymDiscreteContainer`
writes its value; `OpenGymBoxContainer<T>` writes shape, dtype and the data
into the typed array selected by `m_dtype` (the other three stay empty);
`OpenGymTupleContainer` encodes children in order;
`OpenGymDictContainer` encodes each `m_dict` entry, tagging it with its key. -/
def encodeC : Container → WireMsg
  | .discrete v => .discrete v
  | .boxInt sh d => .box sh .INT d [] [] []
  | .boxUint sh d => .box sh .UINT [] d [] []
  | .boxFloat sh d => .box sh .FLOAT [] [] d []
  | .boxDouble sh d => .box sh .DOUBLE [] [] [] d
  | .tuple es => .tuple (encodeList es)
  | .dict es => .dict (encodeEntries es)

/-- The loop of `OpenGymTupleContainer::GetDataContainerPbMsg`. -/
def encodeList : List Container → List WireMsg
  | [] => []
  | c :: cs => encodeC c :: encodeList cs

/-- The loop of `OpenGymDictContainer::GetDataContainerPbMsg`. -/
def encodeEntries : List (String × Container) → List (String × WireMsg)
  | [] => []
  | (k, c) :: rest => (k, encodeC c) :: encodeEntries rest

end

mutual

/-- `OpenGymDataContainer::CreateFromDataContainerPbMsg`: dispatches on
`data_case()`; for Box it dispatches on the wire `dtype` and copies only
the matching typed array — the wire `shape` field is never read, so the
created box has the default (empty) `m_shape`. -/
def decodeC : WireMsg → Container
  | .discrete v => .discrete v
  | .box _sh dt i u f d =>
    match dt with
    | .INT => .boxInt [] i
    | .UINT => .boxUint [] u
    | .FLOAT => .boxFloat [] f
    | .DOUBLE => .boxDouble [] d
  | .tuple es => .tuple (decodeList es)
  | .dict es => .dict (decodeDictAux es [])

/-- The tuple branch loop: decode each element and `Add` (push_back) it. -/
def decodeList : List WireMsg → List Container
  | [] => []
  | w :: ws => decodeC w :: decodeList ws

/-- The dict branch loop: decode each element and `Add` (map insert) it
under its `name`, accumulating into the (initially empty) `m_dict`. -/
def decodeDictAux : List (String × WireMsg) → List (String × Container) → List (String × Container)
  | [], acc => acc
  | (k, w) :: rest, acc => decodeDictAux rest (mapInsert k (decodeC w) acc)

end

mutual

/-- Clears every Box `shape` field, recursively.  This is what a
round trip through the wire format actually does to shapes, because
`CreateFromDataContainerPbMsg` ignores the wire `shape`. -/
def stripShapes : Container → Container
  | .discrete v => .discrete v
  | .boxInt _sh d => .boxInt [] d
  | .boxUint _sh d => .boxUint [] d
  | .boxFloat _sh d => .boxFloat [] d
  | .boxDouble _sh d => .boxDouble [] d
  | .tuple es => .tuple (stripList es)
  | .dict es => .dict (stripEntries es)

/-- `stripShapes` mapped over tuple children. -/
def stripList : List Container → List Container
  | [] => []
  | c :: cs => stripShapes c :: stripList cs

/-- `stripShapes` mapped over dict entries (keys untouched). -/
def stripEntries : List (String × Container) → List (String × Container)
  | [] => []
  | (k, c) :: rest => (k, stripShapes c) :: stripEntries rest

end

/-- Strict key-sortedness of an association list: the `std::map`
representation invariant (sorted, hence unique, keys). -/
def keysSorted {α : Type} : List (String × α) → Bool
  | [] => true
  | [_] => true
  | (k, _) :: (k', v') :: rest =>
    decide (keyLt k k') && keysSorted ((k', v') :: rest)

mutual

/-- Well-formedness of an in-memory container: every dict node satisfies
the `std::map` invariant (strictly sorted keys).  Every container actually
built by the C++ classes satisfies this. -/
def containerWF : Container → Bool
  | .discrete _ => true
  | .boxInt _ _ => true
  | .boxUint _ _ => true
  | .boxFloat _ _ => true
  | .boxDouble _ _ => true
  | .tuple es => listWF es
  | .dict es => keysSorted es && entriesWF es

/-- Well-formedness of a tuple's children. -/
def listWF : List Container → Bool
  | [] => true
  | c :: cs => containerWF c && listWF cs

/-- Well-formedness of a dict's children. -/
def entriesWF : List (String × Container) → Bool
  | [] => true
  | (_, c) :: rest => containerWF c && entriesWF rest

end

/-! ### Key-order infrastructure for the `std::map` model -/

theorem strKey_injective : Function.Injective strKey := by
  intro a b h
  have hdata : a.data = b.data := by
    refine List.map_injective_iff.mpr ?_ h
    intro c d hcd
    exact Char.eq_of_val_eq (UInt32.ext hcd)
  cases a; cases b; simp_all

theorem keyLt_trans {a b c : String} (h : keyLt a b) (h' : keyLt b c) : keyLt a c :=
  lt_trans h h'

theorem keyLt_irrefl (a : String) : ¬ keyLt a a := lt_irrefl _

theorem keyLt_asymm {a b : String} (h : keyLt a b) : ¬ keyLt b a := fun h' =>
  keyLt_irrefl a (keyLt_trans h h')

theorem keyLt_ne {a b : String} (h : keyLt a b) : a ≠ b := by
  intro he
  subst he
  exact keyLt_irrefl a h

theorem eq_of_not_keyLt {a b : String} (h : ¬ keyLt a b) (h' : ¬ keyLt b a) : a = b :=
  strKey_injective (le_antisymm (not_lt.mp h') (not_lt.mp h))

/-- The strict key order lifted to map entries. -/
def entryLt {α : Type} (p q : String × α) : Prop := keyLt p.1 q.1

instance {α : Type} : IsTrans (String × α) entryLt :=
  ⟨fun _ _ _ h h' => keyLt_trans h h'⟩

/-- The Boolean `keysSorted` check coincides with strict pairwise ordering
of the keys (the `std::map` representation invariant). -/
theorem keysSorted_iff_pairwise {α : Type} (l : List (String × α)) :
    keysSorted l = true ↔ l.Pairwise entryLt := by
  have hchain : keysSorted l = true ↔ List.Chain' entryLt l := by
    induction l with
    | nil => simp [keysSorted, List.chain'_nil]
    | cons p rest ih =>
      cases rest with
      | nil => simp [keysSorted, List.chain'_singleton]
      | cons q rest' =>
        obtain ⟨k, v⟩ := p
        obtain ⟨k', v'⟩ := q
        simp only [keysSorted, Bool.and_eq_true, decide_eq_true_eq, List.chain'_cons]
        exact and_congr Iff.rfl ih
  exact hchain.trans List.chain'_iff_pairwise

theorem mapFind_mem {α : Type} {k : String} {v : α} :
    ∀ {m : List (String × α)}, mapFind k m = some v → (k, v) ∈ m := by
  intro m
  induction m with
  | nil => intro h; simp [mapFind] at h
  | cons p rest ih =>
    obtain ⟨k', v'⟩ := p
    intro h
    by_cases hk : k = k'
    · subst hk
      simp [mapFind] at h
      subst h
      exact List.mem_cons_self _ _
    · simp [mapFind, hk] at h
      exact List.mem_cons_of_mem _ (ih h)

theorem mapFind_eq_none_of_forall_ne {α : Type} {k : String} :
    ∀ {m : List (String × α)}, (∀ p ∈ m, p.1 ≠ k) → mapFind k m = none := by
  intro m
  induction m with
  | nil => intro _; rfl
  | cons p rest ih =>
    obtain ⟨k', v'⟩ := p
    intro h
    have hne : k ≠ k' := fun he => h (k', v') (List.mem_cons_self _ _) he.symm
    simp only [mapFind, if_neg hne]
    exact ih fun q hq => h q (List.mem_cons_of_mem _ hq)

/-- Inserting a key greater than every key of the map appends at the end. -/
theorem mapInsert_append_of_gt {α : Type} {k : String} {v : α} :
    ∀ {m : List (String × α)}, (∀ p ∈ m, keyLt p.1 k) →
      mapInsert k v m = m ++ [(k, v)] := by
  intro m
  induction m with
  | nil => intro _; rfl
  | cons p rest ih =>
    obtain ⟨k', v'⟩ := p
    intro h
    have h1 : keyLt k' k := h (k', v') (List.mem_cons_self _ _)
    have h2 : ¬ keyLt k k' := keyLt_asymm h1
    have h3 : k ≠ k' := (keyLt_ne h1).symm
    simp only [mapInsert, if_neg h2, if_neg h3, List.cons_append, List.cons.injEq, true_and]
    exact ih fun q hq => h q (List.mem_cons_of_mem _ hq)

/-- On a key-sorted map, inserting an already-present key is a no-op
(this is exactly `std::map::insert`'s behaviour). -/
theorem mapInsert_of_find_some {α : Type} {k : String} {v v₀ : α} :
    ∀ {m : List (String × α)}, m.Pairwise entryLt → mapFind k m = some v₀ →
      mapInsert k v m = m := by
  intro m
  induction m with
  | nil => intro _ h; simp [mapFind] at h
  | cons p rest ih =>
    obtain ⟨k', v'⟩ := p
    intro hs h
    by_cases hk : k = k'
    · subst hk
      simp [mapInsert, if_neg (keyLt_irrefl k)]
    · have hrest : mapFind k rest = some v₀ := by simpa [mapFind, hk] using h
      have hmem : (k, v₀) ∈ rest := mapFind_mem hrest
      have hlt : keyLt k' k := (List.pairwise_cons.mp hs).1 (k, v₀) hmem
      have h2 : ¬ keyLt k k' := keyLt_asymm hlt
      simp only [mapInsert, if_neg h2, if_neg hk, List.cons.injEq, true_and]
      exact ih (List.pairwise_cons.mp hs).2 hrest

/-- Membership in `mapInsert`: an element of the result is an old element
or the inserted pair. -/
theorem mapInsert_mem {α : Type} {k : String} {v : α} {q : String × α} :
    ∀ {m : List (String × α)}, q ∈ mapInsert k v m → q ∈ m ∨ q = (k, v) := by
  intro m
  induction m with
  | nil => intro h; simp [mapInsert] at h; exact Or.inr h
  | cons p rest ih =>
    obtain ⟨k', v'⟩ := p
    intro h
    by_cases h1 : keyLt k k'
    · simp only [mapInsert, if_pos h1, List.mem_cons] at h
      rcases h with h | h | h
      · exact Or.inr h
      · exact Or.inl (by simp [h])
      · exact Or.inl (List.mem_cons_of_mem _ h)
    · by_cases h2 : k = k'
      · simp only [mapInsert, if_neg h1, if_pos h2] at h
        exact Or.inl h
      · simp only [mapInsert, if_neg h1, if_neg h2, List.mem_cons] at h
        rcases h with h | h
        · exact Or.inl (by simp [h])
        · rcases ih h with h | h
          · exact Or.inl (List.mem_cons_of_mem _ h)
          · exact Or.inr h

/-- `mapInsert` preserves the sortedness invariant. -/
theorem mapInsert_pairwise {α : Type} {k : String} {v : α} :
    ∀ {m : List (String × α)}, m.Pairwise entryLt →
      (mapInsert k v m).Pairwise entryLt := by
  intro m
  induction m with
  | nil => intro _; simp [mapInsert, entryLt]
  | cons p rest ih =>
    obtain ⟨k', v'⟩ := p
    intro hs
    obtain ⟨hhead, hrest⟩ := List.pairwise_cons.mp hs
    by_cases h1 : keyLt k k'
    · simp only [mapInsert, if_pos h1]
      refine List.pairwise_cons.mpr ⟨?_, hs⟩
      intro q hq
      rcases List.mem_cons.mp hq with h | h
      · subst h; exact h1
      · exact keyLt_trans h1 (hhead q h)
    · by_cases h2 : k = k'
      · simp only [mapInsert, if_neg h1, if_pos h2]
        exact hs
      · simp only [mapInsert, if_neg h1, if_neg h2]
        have hgt : keyLt k' k := by
          by_contra hng
          exact h2 (eq_of_not_keyLt h1 hng)
        refine List.pairwise_cons.mpr ⟨?_, ih hrest⟩
        intro q hq
        rcases mapInsert_mem hq with h | h
        · exact hhead q h
        · subst h; exact hgt

/-- Folding `mapInsert` over a pair list: the shape of every dict-building
loop (`Add` in a loop) in the source. -/
def insertAll {α : Type} (acc : List (String × α)) : List (String × α) → List (String × α)
  | [] => acc
  | (k, v) :: rest => insertAll (mapInsert k v acc) rest

/-- Re-inserting an already key-sorted sequence of entries reproduces it. -/
theorem insertAll_of_pairwise_append {α : Type} :
    ∀ (l acc : List (String × α)), (acc ++ l).Pairwise entryLt →
      insertAll acc l = acc ++ l := by
  intro l
  induction l with
  | nil => intro acc _; simp [insertAll]
  | cons p rest ih =>
    obtain ⟨k, v⟩ := p
    intro acc h
    have hacc : ∀ q ∈ acc, keyLt q.1 k := by
      intro q hq
      exact (List.pairwise_append.mp h).2.2 q hq (k, v) (List.mem_cons_self _ _)
    have hins : mapInsert k v acc = acc ++ [(k, v)] := mapInsert_append_of_gt hacc
    have hassoc : (acc ++ [(k, v)]) ++ rest = acc ++ ((k, v) :: rest) := by simp
    calc insertAll acc ((k, v) :: rest)
        = insertAll (mapInsert k v acc) rest := rfl
      _ = insertAll (acc ++ [(k, v)]) rest := by rw [hins]
      _ = (acc ++ [(k, v)]) ++ rest := ih _ (by rw [hassoc]; exact h)
      _ = acc ++ ((k, v) :: rest) := hassoc

/-- The dict-decoding loop is a fold of `mapInsert` over the decoded
elements. -/
theorem decodeDictAux_eq_insertAll :
    ∀ (l : List (String × WireMsg)) (acc : List (String × Container)),
      decodeDictAux l acc = insertAll acc (l.map fun p => (p.1, decodeC p.2)) := by
  intro l
  induction l with
  | nil => intro acc; rfl
  | cons p rest ih =>
    obtain ⟨k, w⟩ := p
    intro acc
    simp only [decodeDictAux, List.map_cons, insertAll]
    exact ih _

/-! ### Structural induction for the nested container type -/

/-- Induction principle for `Container` giving the inductive hypothesis at
every tuple element and every dict value. -/
theorem Container.indOn (P : Container → Prop)
    (hdis : ∀ v, P (.discrete v))
    (hbi : ∀ sh d, P (.boxInt sh d))
    (hbu : ∀ sh d, P (.boxUint sh d))
    (hbf : ∀ sh d, P (.boxFloat sh d))
    (hbd : ∀ sh d, P (.boxDouble sh d))
    (htup : ∀ es, (∀ e ∈ es, P e) → P (.tuple es))
    (hdict : ∀ es, (∀ p ∈ es, P p.2) → P (.dict es)) :
    ∀ c, P c := by
  suffices h : ∀ (n : Nat) (c : Container), sizeOf c < n → P c by
    exact fun c => h (sizeOf c + 1) c (Nat.lt_succ_self _)
  intro n
  induction n with
  | zero => intro c hc; omega
  | succ n ih =>
    intro c hc
    match c with
    | .discrete v => exact hdis v
    | .boxInt sh d => exact hbi sh d
    | .boxUint sh d => exact hbu sh d
    | .boxFloat sh d => exact hbf sh d
    | .boxDouble sh d => exact hbd sh d
    | .tuple es =>
      refine htup es fun e he => ih e ?_
      have h1 : sizeOf e < sizeOf es := List.sizeOf_lt_of_mem he
      have h2 : sizeOf (Container.tuple es) = 1 + sizeOf es := by simp
      omega
    | .dict es =>
      refine hdict es fun p hp => ih p.2 ?_
      have h1 : sizeOf p < sizeOf es := List.sizeOf_lt_of_mem hp
      have h2 : sizeOf p.2 < sizeOf p := by
        obtain ⟨a, b⟩ := p
        simp
      have h3 : sizeOf (Container.dict es) = 1 + sizeOf es := by simp
      omega

/-! ### The loop bodies as `List.map`, and preserved invariants -/

theorem encodeList_eq_map : ∀ es : List Container, encodeList es = es.map encodeC := by
  intro es
  induction es with
  | nil => rfl
  | cons c cs ih => simp [encodeList, ih]

theorem encodeEntries_eq_map : ∀ es : List (String × Container),
    encodeEntries es = es.map fun p => (p.1, encodeC p.2) := by
  intro es
  induction es with
  | nil => rfl
  | cons p rest ih =>
    obtain ⟨k, c⟩ := p
    simp [encodeEntries, ih]

theorem stripList_eq_map : ∀ es : List Container, stripList es = es.map stripShapes := by
  intro es
  induction es with
  | nil => rfl
  | cons c cs ih => simp [stripList, ih]

theorem stripEntries_eq_map : ∀ es : List (String × Container),
    stripEntries es = es.map fun p => (p.1, stripShapes p.2) := by
  intro es
  induction es with
  | nil => rfl
  | cons p rest ih =>
    obtain ⟨k, c⟩ := p
    simp [stripEntries, ih]

theorem decodeList_eq_map : ∀ ws : List WireMsg, decodeList ws = ws.map decodeC := by
  intro ws
  induction ws with
  | nil => rfl
  | cons w ws ih => simp [decodeList, ih]

theorem listWF_mem : ∀ {es : List Container}, listWF es = true →
    ∀ {e : Container}, e ∈ es → containerWF e = true := by
  intro es
  induction es with
  | nil => intro _ e he; cases he
  | cons c cs ih =>
    intro h e he
    simp only [listWF, Bool.and_eq_true] at h
    rcases List.mem_cons.mp he with h' | h'
    · subst h'; exact h.1
    · exact ih h.2 h'

theorem entriesWF_mem : ∀ {es : List (String × Container)}, entriesWF es = true →
    ∀ {p : String × Container}, p ∈ es → containerWF p.2 = true := by
  intro es
  induction es with
  | nil => intro _ p hp; cases hp
  | cons q rest ih =>
    obtain ⟨k, c⟩ := q
    intro h p hp
    simp only [entriesWF, Bool.and_eq_true] at h
    rcases List.mem_cons.mp hp with h' | h'
    · subst h'; exact h.1
    · exact ih h.2 h'

/-! ### The round trip computes `stripShapes` -/

/-- Decoding an encoded well-formed container yields the container with all
Box shapes cleared: `CreateFromDataContainerPbMsg` never reads the wire
`shape` field, everything else survives the trip. -/
theorem decode_encode_eq_strip :
    ∀ c : Container, containerWF c = true → decodeC (encodeC c) = stripShapes c := by
  intro c
  induction c using Container.indOn with
  | hdis v => intro _; rfl
  | hbi sh d => intro _; rfl
  | hbu sh d => intro _; rfl
  | hbf sh d => intro _; rfl
  | hbd sh d => intro _; rfl
  | htup es ih =>
    intro hwf
    have hlist : ∀ e ∈ es, decodeC (encodeC e) = stripShapes e := fun e he =>
      ih e he (listWF_mem hwf he)
    show Container.tuple (decodeList (encodeList es)) = Container.tuple (stripList es)
    rw [encodeList_eq_map, decodeList_eq_map, stripList_eq_map, List.map_map]
    congr 1
    exact List.map_congr_left fun e he => hlist e he
  | hdict es ih =>
    intro hwf
    have hwf' : (keysSorted es && entriesWF es) = true := hwf
    rw [Bool.and_eq_true] at hwf'
    obtain ⟨hsorted, hchild⟩ := hwf'
    have hvals : ∀ p ∈ es, decodeC (encodeC p.2) = stripShapes p.2 := fun p hp =>
      ih p hp (entriesWF_mem hchild hp)
    show Container.dict (decodeDictAux (encodeEntries es) []) = Container.dict (stripEntries es)
    rw [decodeDictAux_eq_insertAll, encodeEntries_eq_map, stripEntries_eq_map, List.map_map]
    have hmap : (es.map ((fun p => (p.1, decodeC p.2)) ∘ fun p => (p.1, encodeC p.2)))
        = es.map fun p => (p.1, stripShapes p.2) := by
      refine List.map_congr_left fun p hp => ?_
      simp only [Function.comp_apply]
      rw [hvals p hp]
    rw [hmap]
    have hpair : (es.map fun p => (p.1, stripShapes p.2)).Pairwise entryLt := by
      rw [List.pairwise_map]
      exact (keysSorted_iff_pairwise es).mp hsorted
    have := insertAll_of_pairwise_append (es.map fun p => (p.1, stripShapes p.2)) [] (by
      simpa using hpair)
    simpa using this

/-! ### Canonicity of the sorted map representation -/

theorem mapFind_eq_none_of_lt_all {α : Type} {k : String} {m : List (String × α)}
    (h : ∀ p ∈ m, keyLt k p.1) : mapFind k m = none :=
  mapFind_eq_none_of_forall_ne fun p hp he => keyLt_irrefl k (he ▸ h p hp)

/-- Two key-sorted maps with the same lookup function are equal: the
sorted association list is a canonical representation, which is why
`std::map` contents are determined by the key-value mapping alone. -/
theorem sorted_find_ext {α : Type} :
    ∀ (m₁ m₂ : List (String × α)), m₁.Pairwise entryLt → m₂.Pairwise entryLt →
      (∀ k, mapFind k m₁ = mapFind k m₂) → m₁ = m₂ := by
  intro m₁
  induction m₁ with
  | nil =>
    intro m₂ _ _ h
    cases m₂ with
    | nil => rfl
    | cons p r =>
      obtain ⟨k₂, v₂⟩ := p
      have := h k₂
      simp [mapFind] at this
  | cons p r₁ ih =>
    obtain ⟨k₁, v₁⟩ := p
    intro m₂ hs₁ hs₂ h
    cases m₂ with
    | nil =>
      have := h k₁
      simp [mapFind] at this
    | cons q r₂ =>
      obtain ⟨k₂, v₂⟩ := q
      obtain ⟨hhead₁, hrest₁⟩ := List.pairwise_cons.mp hs₁
      obtain ⟨hhead₂, hrest₂⟩ := List.pairwise_cons.mp hs₂
      have hk : k₁ = k₂ := by
        by_contra hne
        rcases (lt_trichotomy (strKey k₁) (strKey k₂)).imp_right
            (fun h' => h'.resolve_left (fun he => hne (strKey_injective he))) with hlt | hgt
        · have hnone : mapFind k₁ ((k₂, v₂) :: r₂) = none := by
            refine mapFind_eq_none_of_lt_all ?_
            intro p hp
            rcases List.mem_cons.mp hp with h' | h'
            · subst h'; exact hlt
            · exact keyLt_trans hlt (hhead₂ p h')
          have hcontra := h k₁
          rw [hnone] at hcontra
          simp [mapFind] at hcontra
        · have hnone : mapFind k₂ ((k₁, v₁) :: r₁) = none := by
            refine mapFind_eq_none_of_lt_all ?_
            intro p hp
            rcases List.mem_cons.mp hp with h' | h'
            · subst h'; exact hgt
            · exact keyLt_trans hgt (hhead₁ p h')
          have hcontra := h k₂
          rw [hnone] at hcontra
          simp [mapFind] at hcontra
      subst hk
      have hv : v₁ = v₂ := by
        have := h k₁
        simpa [mapFind] using this
      subst hv
      have hr : r₁ = r₂ := by
        refine ih r₂ hrest₁ hrest₂ ?_
        intro k
        by_cases hk : k = k₁
        · subst hk
          rw [mapFind_eq_none_of_lt_all (fun p hp => hhead₁ p hp),
            mapFind_eq_none_of_lt_all (fun p hp => hhead₂ p hp)]
        · have := h k
          simpa [mapFind, hk] using this
      rw [hr]

/-! ### The remaining container operations -/

/-- `OpenGymBoxContainer<T>::GetValue`: `T data = 0;` then overwritten only
when `idx < m_data.size()`, so an out-of-range read returns the zero value. -/
def boxGetValue {α : Type} [OfNat α 0] (data : List α) (idx : Nat) : α :=
  if h : idx < data.length then data.get ⟨idx, h⟩ else 0

/-- `OpenGymTupleContainer::Add`: `push_back`, always returns true. -/
def tupleAdd (space : Container) (t : List Container) : Bool × List Container :=
  (true, t ++ [space])

/-- `OpenGymTupleContainer::Get`: a default-constructed (null) `Ptr` unless
`idx` is in range. -/
def tupleGet (t : List Container) (idx : Nat) : Option Container :=
  if h : idx < t.length then some (t.get ⟨idx, h⟩) else none

/-- `OpenGymDictContainer::Add`: `m_dict.insert(...)` and an unconditional
`return true`. -/
def dictAdd (key : String) (data : Container) (m : List (String × Container)) :
    Bool × List (String × Container) :=
  (true, mapInsert key data m)

/-- `OpenGymDictContainer::Get`: a null `Ptr` unless `m_dict.find(key)`
hits. -/
def dictGet (key : String) (m : List (String × Container)) : Option Container :=
  mapFind key m

/-- `OpenGymBoxContainer<T>::SetDtype`, dispatching on `TypeNameGet<T>()`;
`none` models the fatal `NS_ABORT_MSG("Unsupported data type: ...")`. -/
def setDtype (typeName : String) : Option Dtype :=
  if typeName = "int8_t" ∨ typeName = "int16_t" ∨ typeName = "int32_t" ∨
      typeName = "int64_t" then some .INT
  else if typeName = "uint8_t" ∨ typeName = "uint16_t" ∨ typeName = "uint32_t" ∨
      typeName = "uint64_t" then some .UINT
  else if typeName = "float" then some .FLOAT
  else if typeName = "double" then some .DOUBLE
  else none

/-- The shape and dtype fields a constructed `OpenGymBoxContainer<T>`
carries. -/
structure BoxMeta : Type where
  shape : List Nat
  dtype : Dtype
deriving DecidableEq, Repr

/-- The `OpenGymBoxContainer` constructors: record the shape argument
(empty for the default constructor) and call `SetDtype`; a `SetDtype`
abort aborts construction. -/
def boxConstruct (typeName : String) (shape : List Nat) : Option BoxMeta :=
  (setDtype typeName).map fun dt => ⟨shape, dt⟩

/-! ### `Print` (the `format` rendering) -/

/-- `std::to_string` of a `float` / `double` is floating-point numeric
formatting, which is outside this integer model; it is rendered as a token
of the stored bit pattern.  All that matters for the claims is that the
rendering is a function of the stored value. -/
def scalarFloatStr (x : F32) : String := toString x.bits

/-- See `scalarFloatStr`. -/
def scalarDoubleStr (x : F64) : String := toString x.bits

mutual

/-- The `Print` methods: `OpenGymDiscreteContainer` prints its value,
`OpenGymBoxContainer` a bracketed comma-joined list,
`OpenGymTupleContainer` `Tuple(...)` over its elements in order, and
`OpenGymDictContainer` `Dict(k=v, ...)` iterating `m_dict`, i.e. in key
order. -/
def printC : Container → String
  | .discrete v => toString v
  | .boxInt _sh d => "[" ++ String.intercalate ", " (d.map toString) ++ "]"
  | .boxUint _sh d => "[" ++ String.intercalate ", " (d.map toString) ++ "]"
  | .boxFloat _sh d => "[" ++ String.intercalate ", " (d.map scalarFloatStr) ++ "]"
  | .boxDouble _sh d => "[" ++ String.intercalate ", " (d.map scalarDoubleStr) ++ "]"
  | .tuple es => "Tuple(" ++ String.intercalate ", " (printList es) ++ ")"
  | .dict es => "Dict(" ++ String.intercalate ", " (printEntries es) ++ ")"

/-- The element loop of `OpenGymTupleContainer::Print`. -/
def printList : List Container → List String
  | [] => []
  | c :: cs => printC c :: printList cs

/-- The entry loop of `OpenGymDictContainer::Print`: `name << "=" << value`. -/
def printEntries : List (String × Container) → List String
  | [] => []
  | (k, c) :: rest => (k ++ "=" ++ printC c) :: printEntries rest

end

/-- The `m_dict` of an `OpenGymDictContainer` populated by calling `Add`
once for each entry of `l`, in list order, starting from the empty map. -/
def buildDict (l : List (String × Container)) : List (String × Container) :=
  l.foldl (fun m p => (dictAdd p.1 p.2 m).2) []

theorem buildDict_eq_insertAll (l : List (String × Container)) :
    buildDict l = insertAll [] l := by
  show List.foldl _ _ l = _
  generalize ([] : List (String × Container)) = acc
  induction l generalizing acc with
  | nil => rfl
  | cons p rest ih =>
    obtain ⟨k, v⟩ := p
    simp only [buildDict, List.foldl_cons, insertAll, dictAdd]
    exact ih _

theorem insertAll_pairwise :
    ∀ (l acc : List (String × Container)), acc.Pairwise entryLt →
      (insertAll acc l).Pairwise entryLt := by
  intro l
  induction l with
  | nil => intro acc h; exact h
  | cons p rest ih =>
    obtain ⟨k, v⟩ := p
    intro acc h
    exact ih _ (mapInsert_pairwise h)

/-! ## The gym interface protocol engine (`OpenGymInterface`)

The transport (`Ns3penvMsgInterface`, shared-memory with begin/end
brackets) is out of scope; each send/receive bracket is a trace event and
each blocking receive is fed the remote reply as an argument.  `std::exit(0)`
is modelled by returning `none` for the post state: no further code of the
process runs. -/

/-- The protocol-relevant fields of `OpenGymInterface`
(`m_simEnd`, `m_stopEnvRequested`, `m_initSimMsgSent`). -/
structure GymState : Type where
  simEnd : Bool
  stopEnvRequested : Bool
  initSimMsgSent : Bool
deriving DecidableEq, Repr

/-- The state established by the `OpenGymInterface` constructor. -/
def initialGymState : GymState := ⟨false, false, false⟩

/-- Observable protocol events: the transport sends/receives, the process
exit taken on a remote stop request, and the invocation of the
action-executor callback (`ExecuteActions`). -/
inductive Event : Type
  | sendSimInit
  | recvSimInitAck
  | sendEnvState
  | recvEnvAct
  | executeActions
  | exitProcess
deriving DecidableEq, Repr

/-- `ns3penv::SimInitAck` (reply to the `SimInitMsg`). -/
structure SimInitAck : Type where
  done : Bool
  stopSimReq : Bool
deriving DecidableEq, Repr

/-- `ns3penv::EnvActMsg` (reply to the `EnvStateMsg`): the stop flag and the
action payload handed to `CreateFromDataContainerPbMsg` / `ExecuteActions`. -/
structure EnvActMsg : Type where
  stopSimReq : Bool
  actData : WireMsg

/-- `OpenGymInterface::Init`: a no-op when `m_initSimMsgSent` is already
set; otherwise sets the flag, sends the `SimInitMsg`, blocks for the
`SimInitAck`, and exits the process when the ack requests a stop. -/
def gymInit (s : GymState) (ack : SimInitAck) : Option GymState × List Event :=
  if s.initSimMsgSent then (some s, [])
  else
    let s1 : GymState := { s with initSimMsgSent := true }
    if ack.stopSimReq then
      (none, [.sendSimInit, .recvSimInitAck, .exitProcess])
    else
      (some s1, [.sendSimInit, .recvSimInitAck])

/-- `OpenGymInterface::NotifyCurrentState`: runs `Init()` first when the
handshake has not happened, returns early when a stop was requested,
otherwise sends the `EnvStateMsg` and blocks for the `EnvActMsg`; when
`m_simEnd` is set it returns right after the receive, else it exits on a
stop request, else decodes the action and calls `ExecuteActions`. -/
def notifyCurrentState (s : GymState) (ack : SimInitAck) (act : EnvActMsg) :
    Option GymState × List Event :=
  match (if s.initSimMsgSent then (some s, ([] : List Event)) else gymInit s ack) with
  | (none, evs) => (none, evs)
  | (some s1, evs) =>
    if s1.stopEnvRequested then (some s1, evs)
    else
      let evs := evs ++ [.sendEnvState, .recvEnvAct]
      if s1.simEnd then (some s1, evs)
      else if act.stopSimReq then (none, evs ++ [.exitProcess])
      else (some s1, evs ++ [.executeActions])

/-- `OpenGymInterface::WaitForStop`: just `NotifyCurrentState()`. -/
def waitForStop (s : GymState) (ack : SimInitAck) (act : EnvActMsg) :
    Option GymState × List Event :=
  notifyCurrentState s ack act

/-- `OpenGymInterface::NotifySimulationEnd`: sets `m_simEnd`; when the
handshake already happened, runs one final rendezvous via `WaitForStop`. -/
def notifySimulationEnd (s : GymState) (ack : SimInitAck) (act : EnvActMsg) :
    Option GymState × List Event :=
  let s1 : GymState := { s with simEnd := true }
  if s1.initSimMsgSent then waitForStop s1 ack act
  else (some s1, [])

/-- The public entry points of the protocol engine. -/
inductive GymCall : Type
  | init
  | notifyState
  | simulationEnd
deriving DecidableEq, Repr

/-- One call, together with the remote replies it may consume. -/
def gymStep (s : GymState) : GymCall → SimInitAck → EnvActMsg → Option GymState × List Event
  | .init, ack, _ => gymInit s ack
  | .notifyState, ack, act => notifyCurrentState s ack act
  | .simulationEnd, ack, act => notifySimulationEnd s ack act

/-- An execution: a sequence of calls with their remote replies, run from a
state; the concatenated event trace, cut short when the process exits. -/
def gymRun (s : GymState) : List (GymCall × SimInitAck × EnvActMsg) → List Event
  | [] => []
  | (c, ack, act) :: rest =>
    match gymStep s c ack act with
    | (none, evs) => evs
    | (some s', evs) => evs ++ gymRun s' rest

/-- Left-to-right trace scan: `true` iff no `sendEnvState` occurs before the
first `sendSimInit`. -/
def initFirst : List Event → Bool
  | [] => true
  | .sendSimInit :: _ => true
  | .sendEnvState :: _ => false
  | _ :: rest => initFirst rest

/-! ### Protocol invariants -/

/-- No entry point ever clears `m_simEnd`: a surviving step from a
sim-ended state is still sim-ended. -/
theorem gymStep_simEnd_preserved (s : GymState) (c : GymCall) (ack : SimInitAck)
    (act : EnvActMsg) (s' : GymState) (h : (gymStep s c ack act).1 = some s')
    (hse : s.simEnd = true) : s'.simEnd = true := by
  cases c <;>
    simp only [gymStep, gymInit, notifyCurrentState, notifySimulationEnd, waitForStop] at h <;>
    by_cases h1 : s.initSimMsgSent <;>
    by_cases h2 : s.stopEnvRequested <;>
    by_cases h3 : ack.stopSimReq <;>
    by_cases h4 : act.stopSimReq <;>
    simp_all [hse] <;>
    (try cases h) <;>
    simp_all

/-- Once `m_simEnd` is set, no step invokes the action executor. -/
theorem gymStep_no_exec_of_simEnd (s : GymState) (c : GymCall) (ack : SimInitAck)
    (act : EnvActMsg) (hse : s.simEnd = true) :
    Event.executeActions ∉ (gymStep s c ack act).2 := by
  cases c <;>
    simp only [gymStep, gymInit, notifyCurrentState, notifySimulationEnd, waitForStop] <;>
    by_cases h1 : s.initSimMsgSent <;>
    by_cases h2 : s.stopEnvRequested <;>
    by_cases h3 : ack.stopSimReq <;>
    by_cases h4 : act.stopSimReq <;>
    simp_all [hse]

/-- Once `m_simEnd` is set, no execution from that state ever invokes the
action executor. -/
theorem gymRun_no_exec_of_simEnd :
    ∀ (calls : List (GymCall × SimInitAck × EnvActMsg)) (s : GymState),
      s.simEnd = true → Event.executeActions ∉ gymRun s calls := by
  intro calls
  induction calls with
  | nil => intro s _ h; cases h
  | cons step rest ih =>
    obtain ⟨c, ack, act⟩ := step
    intro s hse
    show Event.executeActions ∉
      (match gymStep s c ack act with
        | (none, evs) => evs
        | (some s', evs) => evs ++ gymRun s' rest)
    rcases hstep : gymStep s c ack act with ⟨s?, evs⟩
    have hnoexec : Event.executeActions ∉ evs := by
      have := gymStep_no_exec_of_simEnd s c ack act hse
      rw [hstep] at this
      exact this
    cases s? with
    | none => simpa using hnoexec
    | some s' =>
      have hse' : s'.simEnd = true := by
        refine gymStep_simEnd_preserved s c ack act s' ?_ hse
        rw [hstep]
      intro hmem
      rcases List.mem_append.mp hmem with h | h
      · exact hnoexec h
      · exact ih s' hse' h

/-- When the handshake has not happened, the events of a
`NotifyCurrentState` call begin with the full `Init` exchange. -/
theorem notify_events_init_first (s : GymState) (ack : SimInitAck) (act : EnvActMsg)
    (h : s.initSimMsgSent = false) :
    ∃ tail, (notifyCurrentState s ack act).2 = (gymInit s ack).2 ++ tail := by
  by_cases h3 : ack.stopSimReq <;>
    by_cases h2 : s.stopEnvRequested <;>
    by_cases hse : s.simEnd <;>
    by_cases h4 : act.stopSimReq <;>
    simp [notifyCurrentState, gymInit, h, h2, h3, h4, hse]

/-- When the handshake has not happened, any step's event trace is empty or
starts with `sendSimInit` (and an empty trace leaves the flag unset). -/
theorem gymStep_trace_shape (s : GymState) (c : GymCall) (ack : SimInitAck)
    (act : EnvActMsg) (h : s.initSimMsgSent = false) :
    (∃ l, (gymStep s c ack act).2 = Event.sendSimInit :: l) ∨
      ((gymStep s c ack act).2 = [] ∧
        ∀ s', (gymStep s c ack act).1 = some s' → s'.initSimMsgSent = false) := by
  cases c <;>
    simp only [gymStep, gymInit, notifyCurrentState, notifySimulationEnd, waitForStop] <;>
    by_cases h2 : s.stopEnvRequested <;>
    by_cases h3 : ack.stopSimReq <;>
    by_cases h4 : act.stopSimReq <;>
    by_cases hse : s.simEnd <;>
    simp_all [h]

theorem initFirst_append_of_head (l tail : List Event) :
    initFirst ((Event.sendSimInit :: l) ++ tail) = true := rfl

/-- From a state whose handshake is still pending, every execution trace
has the `SimInit` exchange before the first `EnvState` exchange. -/
theorem gymRun_initFirst :
    ∀ (calls : List (GymCall × SimInitAck × EnvActMsg)) (s : GymState),
      s.initSimMsgSent = false → initFirst (gymRun s calls) = true := by
  intro calls
  induction calls with
  | nil => intro s _; rfl
  | cons step rest ih =>
    obtain ⟨c, ack, act⟩ := step
    intro s h
    show initFirst
      (match gymStep s c ack act with
        | (none, evs) => evs
        | (some s', evs) => evs ++ gymRun s' rest) = true
    rcases hstep : gymStep s c ack act with ⟨s?, evs⟩
    rcases gymStep_trace_shape s c ack act h with ⟨l, hl⟩ | ⟨hnil, hkeep⟩
    · rw [hstep] at hl
      have hl' : evs = Event.sendSimInit :: l := hl
      cases s? with
      | none => rw [hl']; rfl
      | some s' =>
        rw [hl']
        exact initFirst_append_of_head l (gymRun s' rest)
    · rw [hstep] at hnil hkeep
      have hnil' : evs = [] := hnil
      cases s? with
      | none => rw [hnil']; rfl
      | some s' =>
        rw [hnil']
        simpa using ih s' (hkeep s' rfl)

/-! ## The claims -/

/-- Claim C1 counterexample: encoding a Box with the non-empty shape `[2]`
and decoding the result does not restore the shape —
`CreateFromDataContainerPbMsg` never reads the wire `shape` field. -/
theorem C1_roundtrip_counterexample :
    decodeC (encodeC (Container.boxInt [2] [1, 2])) ≠ Container.boxInt [2] [1, 2] := by
  simp [encodeC, decodeC]

/-- Claim C1, amended: for every container whose dict nodes satisfy the
`std::map` key-sortedness invariant, decoding the encoding yields the
container with every Box shape cleared to the empty shape; the variant, the
Box dtype and element data, the Tuple element sequence and the Dict keys and
values are all preserved.  Box shapes are not: the decoder ignores the wire
shape field. -/
theorem C1_roundtrip_amended (c : Container) (h : containerWF c = true) :
    decodeC (encodeC c) = stripShapes c :=
  decode_encode_eq_strip c h

/-- A nested example container exercising every variant. -/
def c1ex : Container :=
  .dict [("n", .discrete 3),
         ("pos", .tuple [.boxInt [] [1, -2], .boxUint [] [7],
                         .boxFloat [] [⟨1069547520⟩], .boxDouble [] [⟨4609434218613702656⟩]])]

theorem C1_roundtrip_witness :
    containerWF c1ex = true ∧ decodeC (encodeC c1ex) = stripShapes c1ex :=
  ⟨rfl, C1_roundtrip_amended c1ex rfl⟩

/-- Claim C2: out-of-range Box reads return the element type's zero value,
out-of-range Tuple reads and missing Dict keys return the null container;
each read is a total function, none raises. -/
theorem C2_absent_safety (idx : Nat) (key : String) :
    (∀ d : List Int, d.length ≤ idx → boxGetValue d idx = 0) ∧
    (∀ d : List Nat, d.length ≤ idx → boxGetValue d idx = 0) ∧
    (∀ d : List F32, d.length ≤ idx → boxGetValue d idx = 0) ∧
    (∀ d : List F64, d.length ≤ idx → boxGetValue d idx = 0) ∧
    (∀ t : List Container, t.length ≤ idx → tupleGet t idx = none) ∧
    (∀ m : List (String × Container), (∀ p ∈ m, p.1 ≠ key) → dictGet key m = none) := by
  refine ⟨?_, ?_, ?_, ?_, ?_, ?_⟩
  · intro d h
    simp [boxGetValue, Nat.not_lt.mpr h]
  · intro d h
    simp [boxGetValue, Nat.not_lt.mpr h]
  · intro d h
    simp [boxGetValue, Nat.not_lt.mpr h]
  · intro d h
    simp [boxGetValue, Nat.not_lt.mpr h]
  · intro t h
    simp [tupleGet, Nat.not_lt.mpr h]
  · intro m h
    exact mapFind_eq_none_of_forall_ne h

theorem C2_absent_safety_witness :
    boxGetValue ([5] : List Int) 1 = 0 ∧ boxGetValue ([5] : List Nat) 1 = 0 ∧
    boxGetValue ([⟨5⟩] : List F32) 1 = 0 ∧ boxGetValue ([⟨5⟩] : List F64) 1 = 0 ∧
    tupleGet [.discrete 0] 1 = none ∧
    dictGet "a" [("b", .discrete 0)] = none := by
  obtain ⟨h1, h2, h3, h4, h5, h6⟩ := C2_absent_safety 1 "a"
  exact ⟨h1 [5] (by decide), h2 [5] (by decide), h3 [⟨5⟩] (by decide),
    h4 [⟨5⟩] (by decide), h5 [.discrete 0] (by decide),
    h6 [("b", .discrete 0)] (by decide)⟩

/-- Claim C3: constructing a Box maps signed-integer element types to INT,
unsigned-integer types to UINT, `float` to FLOAT, `double` to DOUBLE, and
is fatal for every other element type name. -/
theorem C3_dtype_consistency (typeName : String) (shape : List Nat) :
    (typeName = "int8_t" ∨ typeName = "int16_t" ∨ typeName = "int32_t" ∨
        typeName = "int64_t" →
      boxConstruct typeName shape = some ⟨shape, .INT⟩) ∧
    (typeName = "uint8_t" ∨ typeName = "uint16_t" ∨ typeName = "uint32_t" ∨
        typeName = "uint64_t" →
      boxConstruct typeName shape = some ⟨shape, .UINT⟩) ∧
    (typeName = "float" → boxConstruct typeName shape = some ⟨shape, .FLOAT⟩) ∧
    (typeName = "double" → boxConstruct typeName shape = some ⟨shape, .DOUBLE⟩) ∧
    (typeName ∉ ["int8_t", "int16_t", "int32_t", "int64_t", "uint8_t", "uint16_t",
        "uint32_t", "uint64_t", "float", "double"] →
      boxConstruct typeName shape = none) := by
  refine ⟨?_, ?_, ?_, ?_, ?_⟩
  · rintro (rfl | rfl | rfl | rfl) <;> rfl
  · rintro (rfl | rfl | rfl | rfl) <;> rfl
  · rintro rfl
    rfl
  · rintro rfl
    rfl
  · intro h
    simp only [List.mem_cons, List.not_mem_nil, or_false, not_or] at h
    obtain ⟨n1, n2, n3, n4, n5, n6, n7, n8, n9, n10⟩ := h
    simp [boxConstruct, setDtype, n1, n2, n3, n4, n5, n6, n7, n8, n9, n10]

theorem C3_dtype_consistency_witness :
    boxConstruct "int32_t" [3] = some ⟨[3], .INT⟩ ∧
    boxConstruct "uint32_t" [3] = some ⟨[3], .UINT⟩ ∧
    boxConstruct "float" [3] = some ⟨[3], .FLOAT⟩ ∧
    boxConstruct "double" [3] = some ⟨[3], .DOUBLE⟩ ∧
    boxConstruct "bool" [3] = none := by
  refine ⟨(C3_dtype_consistency "int32_t" [3]).1 ?_,
    (C3_dtype_consistency "uint32_t" [3]).2.1 ?_,
    (C3_dtype_consistency "float" [3]).2.2.1 ?_,
    (C3_dtype_consistency "double" [3]).2.2.2.1 ?_,
    (C3_dtype_consistency "bool" [3]).2.2.2.2 ?_⟩ <;> decide

/-- Claim C4: a call to `Init` after the handshake flag is set is a complete
no-op — no send, no receive, state unchanged — and from a fresh state two
(and hence any number of) `Init` calls send exactly one SimInit message. -/
theorem C4_init_idempotent (s : GymState) (ack₁ ack₂ : SimInitAck) :
    (s.initSimMsgSent = true → gymInit s ack₁ = (some s, [])) ∧
    (s.initSimMsgSent = false →
      ((gymInit s ack₁).2.count Event.sendSimInit = 1 ∧
        ∀ s₁, (gymInit s ack₁).1 = some s₁ →
          gymInit s₁ ack₂ = (some s₁, []) ∧
          ((gymInit s ack₁).2 ++ (gymInit s₁ ack₂).2).count Event.sendSimInit = 1)) := by
  constructor
  · intro h
    simp [gymInit, h]
  · intro h
    by_cases h3 : ack₁.stopSimReq
    · have h1 : gymInit s ack₁ =
          (none, [.sendSimInit, .recvSimInitAck, .exitProcess]) := by
        simp [gymInit, h, h3]
      refine ⟨by rw [h1]; rfl, ?_⟩
      intro s₁ hs₁
      rw [h1] at hs₁
      simp at hs₁
    · have h1 : gymInit s ack₁ =
          (some { s with initSimMsgSent := true }, [.sendSimInit, .recvSimInitAck]) := by
        simp [gymInit, h, h3]
      rw [h1]
      refine ⟨rfl, ?_⟩
      intro s₁ hs₁
      simp only [Option.some.injEq] at hs₁
      subst hs₁
      have h2 : gymInit { s with initSimMsgSent := true } ack₂ =
          (some { s with initSimMsgSent := true }, []) := by
        simp [gymInit]
      rw [h2]
      exact ⟨rfl, rfl⟩

theorem C4_init_idempotent_witness :
    gymInit ⟨false, false, true⟩ ⟨true, false⟩ = (some ⟨false, false, true⟩, []) ∧
    (gymInit initialGymState ⟨true, false⟩).2.count Event.sendSimInit = 1 ∧
    gymInit ⟨false, false, true⟩ ⟨true, false⟩ = (some ⟨false, false, true⟩, []) ∧
    ((gymInit initialGymState ⟨true, false⟩).2 ++
      (gymInit ⟨false, false, true⟩ ⟨true, false⟩).2).count Event.sendSimInit = 1 := by
  have ha := (C4_init_idempotent ⟨false, false, true⟩ ⟨true, false⟩ ⟨true, false⟩).1 rfl
  have hb := (C4_init_idempotent initialGymState ⟨true, false⟩ ⟨true, false⟩).2 rfl
  obtain ⟨hc, hd⟩ := hb.2 ⟨false, false, true⟩ rfl
  exact ⟨ha, hb.1, hc, hd⟩

/-- Claim C5: a stop-requesting remote reply terminates the round without
the action executor: a stop in the SimInitAck makes `Init` exit the process
right after the exchange, and whenever the EnvAct reply carries a stop
request the `ExecuteActions` callback is not invoked. -/
theorem C5_stop_no_executor (s : GymState) (ack : SimInitAck) (act : EnvActMsg) :
    (s.initSimMsgSent = false → ack.stopSimReq = true →
      gymInit s ack = (none, [.sendSimInit, .recvSimInitAck, .exitProcess])) ∧
    (act.stopSimReq = true →
      Event.executeActions ∉ (notifyCurrentState s ack act).2) := by
  constructor
  · intro h hstop
    simp [gymInit, h, hstop]
  · intro hstop
    simp only [notifyCurrentState, gymInit]
    by_cases h1 : s.initSimMsgSent <;> by_cases h2 : s.stopEnvRequested <;>
      by_cases h3 : ack.stopSimReq <;> by_cases hse : s.simEnd <;> simp_all [hstop]

theorem C5_stop_no_executor_witness :
    gymInit initialGymState ⟨false, true⟩ =
      (none, [.sendSimInit, .recvSimInitAck, .exitProcess]) ∧
    Event.executeActions ∉
      (notifyCurrentState ⟨false, false, true⟩ ⟨false, false⟩ ⟨true, .discrete 0⟩).2 := by
  have h := C5_stop_no_executor initialGymState ⟨false, true⟩ ⟨true, .discrete 0⟩
  have h' := C5_stop_no_executor ⟨false, false, true⟩ ⟨false, false⟩ ⟨true, .discrete 0⟩
  exact ⟨h.1 rfl rfl, h'.2 rfl⟩

/-- Claim C6: with simulation end flagged, a `NotifyCurrentState` exchange
sends the terminal observation and receives the EnvAct reply but returns
right away — and no execution from a sim-ended state ever invokes the
action-executor callback, in that round or any later one. -/
theorem C6_simEnd_discards_action (s : GymState) (ack : SimInitAck) (act : EnvActMsg)
    (hse : s.simEnd = true) :
    (s.initSimMsgSent = true → s.stopEnvRequested = false →
      notifyCurrentState s ack act = (some s, [.sendEnvState, .recvEnvAct])) ∧
    (∀ calls, Event.executeActions ∉ gymRun s calls) := by
  constructor
  · intro h1 h2
    simp [notifyCurrentState, h1, h2, hse]
  · intro calls
    exact gymRun_no_exec_of_simEnd calls s hse

theorem C6_simEnd_discards_action_witness :
    notifyCurrentState ⟨true, false, true⟩ ⟨false, false⟩ ⟨false, .discrete 0⟩
      = (some ⟨true, false, true⟩, [.sendEnvState, .recvEnvAct]) ∧
    Event.executeActions ∉ gymRun ⟨true, false, true⟩
      [(.notifyState, ⟨false, false⟩, ⟨false, .discrete 0⟩),
       (.notifyState, ⟨false, false⟩, ⟨false, .discrete 0⟩)] := by
  have h := C6_simEnd_discards_action ⟨true, false, true⟩ ⟨false, false⟩
    ⟨false, .discrete 0⟩ rfl
  exact ⟨h.1 rfl rfl, h.2 _⟩

/-- Claim C7: the `m_dict` built by any sequence of `Add` calls holds its
entries in sorted key order, and two Dicts with the same key-value mapping
render identically under `Print`, independent of insertion order. -/
theorem C7_dict_print_sorted (l₁ l₂ : List (String × Container)) :
    keysSorted (buildDict l₁) = true ∧
    ((∀ k, dictGet k (buildDict l₁) = dictGet k (buildDict l₂)) →
      printC (.dict (buildDict l₁)) = printC (.dict (buildDict l₂))) := by
  have hp₁ : (buildDict l₁).Pairwise entryLt := by
    rw [buildDict_eq_insertAll]
    exact insertAll_pairwise l₁ [] (by simp)
  have hp₂ : (buildDict l₂).Pairwise entryLt := by
    rw [buildDict_eq_insertAll]
    exact insertAll_pairwise l₂ [] (by simp)
  refine ⟨(keysSorted_iff_pairwise _).mpr hp₁, fun h => ?_⟩
  have heq : buildDict l₁ = buildDict l₂ := sorted_find_ext _ _ hp₁ hp₂ h
  rw [heq]

theorem C7_dict_print_sorted_witness :
    keysSorted (buildDict [("b", .discrete 2), ("a", .discrete 1)]) = true ∧
    printC (.dict (buildDict [("b", .discrete 2), ("a", .discrete 1)])) =
      printC (.dict (buildDict [("a", .discrete 1), ("b", .discrete 2)])) := by
  have h := C7_dict_print_sorted [("b", .discrete 2), ("a", .discrete 1)]
    [("a", .discrete 1), ("b", .discrete 2)]
  have heq : buildDict [("b", Container.discrete 2), ("a", Container.discrete 1)] =
      buildDict [("a", Container.discrete 1), ("b", Container.discrete 2)] := rfl
  exact ⟨h.1, h.2 fun k => congrArg (dictGet k) heq⟩

/-- Claim C8: `OpenGymDictContainer::Add` under an already-present key is a
silent no-op that still reports success: it returns true, the map is
unchanged, and the old value stays bound to the key. -/
theorem C8_dict_add_existing (m : List (String × Container)) (key : String)
    (v₀ vNew : Container) (hs : m.Pairwise entryLt)
    (hfind : mapFind key m = some v₀) :
    dictAdd key vNew m = (true, m) ∧
    dictGet key (dictAdd key vNew m).2 = some v₀ := by
  have h : mapInsert key vNew m = m := mapInsert_of_find_some hs hfind
  constructor
  · show (true, mapInsert key vNew m) = (true, m)
    rw [h]
  · show mapFind key (mapInsert key vNew m) = some v₀
    rw [h]
    exact hfind

theorem C8_dict_add_existing_witness :
    dictAdd "a" (.discrete 9) [("a", .discrete 1)] = (true, [("a", .discrete 1)]) ∧
    dictGet "a" (dictAdd "a" (.discrete 9) [("a", .discrete 1)]).2 =
      some (.discrete 1) :=
  C8_dict_add_existing [("a", .discrete 1)] "a" (.discrete 1) (.discrete 9)
    (List.pairwise_singleton _ _) rfl

/-- Claim C9: when the handshake is pending, `NotifyCurrentState` performs
the full Init exchange before anything else, and in every execution from a
fresh interface state the SimInit exchange precedes the first EnvState
exchange. -/
theorem C9_init_before_state (s : GymState) (ack : SimInitAck) (act : EnvActMsg)
    (calls : List (GymCall × SimInitAck × EnvActMsg))
    (h : s.initSimMsgSent = false) :
    (∃ tail, (notifyCurrentState s ack act).2 = (gymInit s ack).2 ++ tail) ∧
    initFirst (gymRun s calls) = true :=
  ⟨notify_events_init_first s ack act h, gymRun_initFirst calls s h⟩

theorem C9_init_before_state_witness :
    (∃ tail, (notifyCurrentState initialGymState ⟨true, false⟩ ⟨false, .discrete 0⟩).2 =
      (gymInit initialGymState ⟨true, false⟩).2 ++ tail) ∧
    initFirst (gymRun initialGymState
      [(.notifyState, ⟨true, false⟩, ⟨false, .discrete 0⟩)]) = true :=
  C9_init_before_state initialGymState ⟨true, false⟩ ⟨false, .discrete 0⟩
    [(.notifyState, ⟨true, false⟩, ⟨false, .discrete 0⟩)] rfl

/-- Claim C10: with simulation end flagged, the EnvAct reply to the final
exchange is never inspected — even a stop request in it neither records the
stop state nor exits the process; the call returns with the state
unchanged. -/
theorem C10_simEnd_ignores_stop (s : GymState) (ack : SimInitAck) (act : EnvActMsg)
    (hse : s.simEnd = true) (hin : s.initSimMsgSent = true)
    (hnostop : s.stopEnvRequested = false) (_hstop : act.stopSimReq = true) :
    notifyCurrentState s ack act = (some s, [.sendEnvState, .recvEnvAct]) ∧
    Event.exitProcess ∉ (notifyCurrentState s ack act).2 := by
  have h : notifyCurrentState s ack act = (some s, [.sendEnvState, .recvEnvAct]) := by
    simp [notifyCurrentState, hin, hnostop, hse]
  refine ⟨h, ?_⟩
  rw [h]
  simp

theorem C10_simEnd_ignores_stop_witness :
    notifyCurrentState ⟨true, false, true⟩ ⟨false, false⟩ ⟨true, .discrete 0⟩ =
      (some ⟨true, false, true⟩, [.sendEnvState, .recvEnvAct]) ∧
    Event.exitProcess ∉
      (notifyCurrentState ⟨true, false, true⟩ ⟨false, false⟩ ⟨true, .discrete 0⟩).2 :=
  C10_simEnd_ignores_stop ⟨true, false, true⟩ ⟨false, false⟩ ⟨true, .discrete 0⟩
    rfl rfl rfl rfl

end Ns3penv
